import Mathlib

/-!
# Verification of the multi-repo batch-automation harness

A shallow embedding of the task-scheduling and repository-provisioning core
of the `claude-multi-repo-agent` repository, together with proofs of the
behavioural properties stated in its specification.

JavaScript strings are modelled as `List Char` (`JStr`).  Filesystem and
git side effects are modelled as explicit state passing; code that can
throw an uncaught exception returns `Option` (with `none` marking the
exception path).
-/

namespace MultiRepoAgent

/-- JavaScript strings, modelled as lists of characters. -/
abbrev JStr := List Char

/-! ## Target expander (`src/lib/taskgen.mjs`, `parseTargetFile`)

One entry of the YAML `target:` list.  A missing field is `none`.
`parseTargetFile` skips an item when `!item.org || !item.repos ||
!item.branches` holds in JavaScript; an absent field and an empty-string
`org` are falsy, while an *empty array* is truthy. -/

structure TargetItem where
  org : Option JStr
  repos : Option (List JStr)
  branches : Option (List JStr)
deriving DecidableEq, Repr

/-- One expanded (org, repo, branch) job. -/
structure Job where
  org : JStr
  repo : JStr
  branch : JStr
deriving DecidableEq, Repr

/-- The JavaScript guard `!item.org || !item.repos || !item.branches`,
negated: the item is processed exactly when this is `true`
(`taskgen.mjs` line 24). -/
def itemValid (it : TargetItem) : Bool :=
  (match it.org with
   | none => false
   | some s => !s.isEmpty) &&
  it.repos.isSome && it.branches.isSome

/-- The cross product `repos × branches` emitted for one valid item
(`taskgen.mjs` lines 30-38): for each repo in order, for each branch in
order, one job carrying the item's org. -/
def itemJobs (it : TargetItem) : List Job :=
  (it.repos.getD []).flatMap fun r =>
    (it.branches.getD []).map fun b => ⟨it.org.getD [], r, b⟩

/-- The loop of `parseTargetFile` (`taskgen.mjs` lines 21-41): valid items
contribute their cross product in order, invalid items are skipped with a
warning.  Returns the job list and the list of items that were warned
about. -/
def parseTargets : List TargetItem → List Job × List TargetItem
  | [] => ([], [])
  | it :: rest =>
    let r := parseTargets rest
    if itemValid it then (itemJobs it ++ r.1, r.2)
    else (r.1, it :: r.2)

/-! ## Configuration resolution (`loadConfig`, second variant of
`src/unnamed/part_005`, lines 118-176) -/

/-- A fully resolved configuration record. -/
structure Config where
  parallel : Bool
  maxJobs : Int
  saveLogs : Bool
  generateOnly : Bool
  runOnly : Bool
  guideFile : JStr
  shallowClone : Bool
deriving DecidableEq, Repr

/-- One configuration layer (root `config.json`, bundle `config.json`, or
the CLI flags after `undefined` values are filtered out).  `none` means
the key is absent from the layer. -/
structure ConfigLayer where
  parallel : Option Bool := none
  maxJobs : Option Int := none
  saveLogs : Option Bool := none
  generateOnly : Option Bool := none
  runOnly : Option Bool := none
  guideFile : Option JStr := none
  shallowClone : Option Bool := none
deriving DecidableEq, Repr

/-- `DEFAULT_CONFIG` from `part_005` lines 120-128. -/
def DEFAULT_CONFIG : Config where
  parallel := false
  maxJobs := 4
  saveLogs := true
  generateOnly := false
  runOnly := false
  guideFile := "GUIDE.md".data
  shallowClone := true

/-- The JavaScript object spread `{...config, ...layer}` restricted to the
seven configuration keys: a key present in `layer` overwrites, an absent
key falls through. -/
def applyLayer (c : Config) (l : ConfigLayer) : Config where
  parallel := l.parallel.getD c.parallel
  maxJobs := l.maxJobs.getD c.maxJobs
  saveLogs := l.saveLogs.getD c.saveLogs
  generateOnly := l.generateOnly.getD c.generateOnly
  runOnly := l.runOnly.getD c.runOnly
  guideFile := l.guideFile.getD c.guideFile
  shallowClone := l.shallowClone.getD c.shallowClone

/-- `loadConfig` (`part_005` lines 153-176): defaults, then root
`config.json`, then bundle `config.json` (only when a bundle is given),
then the filtered CLI options. -/
def loadConfig (root : ConfigLayer) (bundle : Option ConfigLayer)
    (cli : ConfigLayer) : Config :=
  let c1 := applyLayer DEFAULT_CONFIG root
  let c2 := match bundle with
    | some b => applyLayer c1 b
    | none => c1
  applyLayer c2 cli

/-- Specification-side resolution of one key: the highest-priority layer
holding the key wins, absent keys fall through, the built-in default is
the bottom.  Used to compare `loadConfig` against the spec's
"last-writer-wins, key-by-key" description. -/
def resolveKeySpec {α : Type} (d : α) (root bundle cli : Option α) : α :=
  (cli.orElse fun _ => bundle.orElse fun _ => root).getD d

/-! ## Result aggregation and exit status
(`src/gen-and-run-tasks.sh` lines 1350-1399) -/

/-- The sequential counting loop: each task result increments either the
success or the failure counter. -/
def countResults (rs : List Bool) : Nat × Nat :=
  rs.foldl (fun p r => if r then (p.1 + 1, p.2) else (p.1, p.2 + 1)) (0, 0)

/-- The final `if [[ $FAILED -gt 0 ]]; then exit 1; else exit 0; fi`. -/
def summaryExitCode (failed : Nat) : Nat :=
  if failed > 0 then 1 else 0

/-! ## Theorems: target expander (C2, C6) -/

lemma itemJobs_length (it : TargetItem) :
    (itemJobs it).length =
      (it.repos.getD []).length * (it.branches.getD []).length := by
  simp [itemJobs]
  induction it.repos.getD [] with
  | nil => simp
  | cons r rs ih => simp [ih, Nat.succ_mul, Nat.add_comm]

lemma itemJobs_empty (it : TargetItem)
    (h : it.repos = some [] ∨ it.branches = some []) : itemJobs it = [] := by
  rcases h with h | h <;> simp [itemJobs, h]

/-- **C2.** For a target spec all of whose entries pass the presence check
(org present and non-empty, repos and branches present), `parseTargetFile`
emits exactly the cross product: the jobs are, in entry order then repo
order then branch order, one job per (repo, branch) pair carrying the
entry's org, with no deduplication; the total length is the sum over
entries of `|repos| * |branches|`; and no warning is emitted. -/
theorem parseTargets_cross_product (items : List TargetItem)
    (hv : ∀ it ∈ items, itemValid it = true) :
    (parseTargets items).1 = items.flatMap itemJobs ∧
    (parseTargets items).1.length =
      (items.map fun it =>
        (it.repos.getD []).length * (it.branches.getD []).length).sum ∧
    (parseTargets items).2 = [] := by
  induction items with
  | nil => simp [parseTargets]
  | cons it rest ih =>
    have hit : itemValid it = true := hv it (List.mem_cons_self it rest)
    have hrest : ∀ x ∈ rest, itemValid x = true := fun x hx =>
      hv x (List.mem_cons_of_mem it hx)
    obtain ⟨h1, h2, h3⟩ := ih hrest
    refine ⟨?_, ?_, ?_⟩
    · simp [parseTargets, hit, h1]
    · simp only [parseTargets, hit, if_true, List.length_append, h2,
        List.map_cons, List.sum_cons, itemJobs_length]
    · simp [parseTargets, hit, h3]

/-- Witness for C2 at the spec's Scenario A:
`{org: "acme", repos: ["svc"], branches: ["main","dev"]}`. -/
def itemA : TargetItem :=
  ⟨some "acme".data, some ["svc".data], some ["main".data, "dev".data]⟩

theorem parseTargets_cross_product_witness :
    (∀ it ∈ [itemA], itemValid it = true) ∧
    ((parseTargets [itemA]).1 = [itemA].flatMap itemJobs ∧
     (parseTargets [itemA]).1.length =
       ([itemA].map fun it =>
         (it.repos.getD []).length * (it.branches.getD []).length).sum ∧
     (parseTargets [itemA]).2 = []) :=
  ⟨by decide, parseTargets_cross_product [itemA] (by decide)⟩

/-- A spec entry with a present org and branches but an *empty* repos
list.  In JavaScript an empty array is truthy, so this entry passes the
`!item.repos` check. -/
def emptyReposItem : TargetItem :=
  ⟨some "acme".data, some [], some ["main".data]⟩

/-- **C6 counterexample.**  An entry with an empty `repos` list
contributes zero jobs and does not crash, but — contrary to the claim —
*no warning is emitted for it*: the warning branch fires only when a
field is missing (or org is an empty string), and an empty array passes
the truthiness check.  Here the warning list of the parse is empty. -/
theorem parseTargets_emptyRepos_no_warning :
    (parseTargets [emptyReposItem]).1 = [] ∧
    (parseTargets [emptyReposItem]).2 = [] ∧
    emptyReposItem.repos = some [] := by
  refine ⟨by decide, by decide, by decide⟩

/-- **C6 amended.**  An entry with an empty `repos` or `branches` list
(and otherwise present fields) contributes zero jobs, does not crash, and
leaves the processing of all other entries unchanged; no warning is
emitted for it. -/
theorem parseTargets_emptyList_skipped (pre post : List TargetItem)
    (it : TargetItem) (hval : itemValid it = true)
    (hempty : it.repos = some [] ∨ it.branches = some []) :
    parseTargets (pre ++ it :: post) = parseTargets (pre ++ post) := by
  induction pre with
  | nil => simp [parseTargets, hval, itemJobs_empty it hempty]
  | cons p pre ih => simp [parseTargets, ih]

theorem parseTargets_emptyList_skipped_witness :
    (itemValid emptyReposItem = true ∧
     (emptyReposItem.repos = some [] ∨ emptyReposItem.branches = some [])) ∧
    parseTargets ([] ++ emptyReposItem :: [itemA]) = parseTargets ([] ++ [itemA]) :=
  ⟨⟨by decide, Or.inl (by decide)⟩,
   parseTargets_emptyList_skipped [] [itemA] emptyReposItem (by decide)
     (Or.inl (by decide))⟩

/-! ## Theorems: configuration layering (C7) -/

lemma getD_orElse3 {α : Type} (d : α) (x y z : Option α) :
    z.getD (y.getD (x.getD d)) =
      (z.orElse fun _ => y.orElse fun _ => x).getD d := by
  cases z <;> cases y <;> cases x <;> rfl

lemma getD_orElse2 {α : Type} (d : α) (x z : Option α) :
    z.getD (x.getD d) = (z.orElse fun _ => x).getD d := by
  cases z <;> cases x <;> rfl

/-- **C7.** Configuration resolution is a key-by-key last-writer-wins
shallow merge in increasing priority: built-in defaults, root
`config.json`, bundle `config.json` (when a bundle is given), then the
CLI flags; a key absent from every higher layer falls through to the
layer below, bottoming out at `DEFAULT_CONFIG`.  Each of the seven keys
is resolved independently of the others (no deep merge: every key holds a
scalar value and is overwritten wholesale). -/
theorem loadConfig_key_by_key (root : ConfigLayer) (bundle : Option ConfigLayer)
    (cli : ConfigLayer) :
    (loadConfig root bundle cli).parallel =
      resolveKeySpec DEFAULT_CONFIG.parallel root.parallel
        (bundle.bind fun b => b.parallel) cli.parallel ∧
    (loadConfig root bundle cli).maxJobs =
      resolveKeySpec DEFAULT_CONFIG.maxJobs root.maxJobs
        (bundle.bind fun b => b.maxJobs) cli.maxJobs ∧
    (loadConfig root bundle cli).saveLogs =
      resolveKeySpec DEFAULT_CONFIG.saveLogs root.saveLogs
        (bundle.bind fun b => b.saveLogs) cli.saveLogs ∧
    (loadConfig root bundle cli).generateOnly =
      resolveKeySpec DEFAULT_CONFIG.generateOnly root.generateOnly
        (bundle.bind fun b => b.generateOnly) cli.generateOnly ∧
    (loadConfig root bundle cli).runOnly =
      resolveKeySpec DEFAULT_CONFIG.runOnly root.runOnly
        (bundle.bind fun b => b.runOnly) cli.runOnly ∧
    (loadConfig root bundle cli).guideFile =
      resolveKeySpec DEFAULT_CONFIG.guideFile root.guideFile
        (bundle.bind fun b => b.guideFile) cli.guideFile ∧
    (loadConfig root bundle cli).shallowClone =
      resolveKeySpec DEFAULT_CONFIG.shallowClone root.shallowClone
        (bundle.bind fun b => b.shallowClone) cli.shallowClone := by
  cases bundle <;>
    refine ⟨?_, ?_, ?_, ?_, ?_, ?_, ?_⟩ <;>
    simp [loadConfig, applyLayer, resolveKeySpec, getD_orElse3, getD_orElse2]

/-! ## Theorems: exit status (C8) -/

lemma countResults_aux (rs : List Bool) (p : Nat × Nat) :
    rs.foldl (fun p r => if r then (p.1 + 1, p.2) else (p.1, p.2 + 1)) p =
      (p.1 + rs.countP (fun r => r), p.2 + rs.countP (fun r => !r)) := by
  induction rs generalizing p with
  | nil => simp
  | cons r rest ih =>
    cases r <;> simp [List.countP_cons, ih] <;> omega

lemma countResults_snd (rs : List Bool) :
    (countResults rs).2 = rs.countP (fun r => !r) := by
  simp [countResults, countResults_aux]

/-- **C8.** After executing a batch of tasks, the process exit status is
non-zero if and only if the failure counter is positive, which happens
exactly when some task result was unsuccessful; when every task result is
successful the process exits with status 0. -/
theorem summaryExitCode_iff_failed (rs : List Bool) :
    (summaryExitCode (countResults rs).2 ≠ 0 ↔ 0 < (countResults rs).2) ∧
    (summaryExitCode (countResults rs).2 = 0 ↔ ∀ r ∈ rs, r = true) := by
  constructor
  · by_cases h : 0 < (countResults rs).2 <;> simp [summaryExitCode, h]
  · rw [countResults_snd]
    by_cases h : rs.countP (fun r => !r) = 0
    · simp only [summaryExitCode, h]
      rw [List.countP_eq_zero] at h
      simp only [Bool.not_eq_true', gt_iff_lt, lt_self_iff_false, if_false]
      simpa using h
    · simp only [summaryExitCode, Nat.pos_of_ne_zero h, if_pos]
      rw [List.countP_eq_zero] at h
      push_neg at h
      simp only [Bool.not_eq_true'] at h
      constructor
      · intro hc; omega
      · intro hall
        obtain ⟨x, hx, hfx⟩ := h
        exact absurd (hall x hx) (by simpa using hfx)

/-! ## Repository provisioner (`src/lib/repository.mjs`)

The on-disk git state of one repository is its list of remotes
(name, url); a workspace maps repository names to such states (a
repository name is present exactly when `workspaceRoot/repo` exists as a
directory).  The external collaborators (`gh api user`, fork listing and
creation, cloning, worktree creation) are modelled by an `Env` record of
oracles that stays fixed across calls ("no intervening external
changes"). -/

/-- Git remotes of one local repository, in creation order. -/
structure RepoState where
  remotes : List (JStr × JStr)
deriving DecidableEq, Repr

/-- The workspace directory: repository name to local state, present iff
the directory exists. -/
abbrev Workspace := List (JStr × RepoState)

def lookupAssoc {α : Type} : List (JStr × α) → JStr → Option α
  | [], _ => none
  | (n, u) :: rest, name => if n = name then some u else lookupAssoc rest name

/-- `git remote set-url NAME URL`: update the (first) remote of that
name. -/
def setRemoteUrl : List (JStr × JStr) → JStr → JStr → List (JStr × JStr)
  | [], _, _ => []
  | (n, u) :: rest, name, url =>
    if n = name then (n, url) :: rest else (n, u) :: setRemoteUrl rest name url

def setRepo : Workspace → JStr → RepoState → Workspace
  | [], repo, rs => [(repo, rs)]
  | (r, s) :: rest, repo, rs =>
    if r = repo then (r, rs) :: rest else (r, s) :: setRepo rest repo rs

def upstreamName : JStr := "upstream".data

def originName : JStr := "origin".data

/-- `https://github.com/{org}/{repo}.git` (`repository.mjs` lines 88 and
136). -/
def upstreamUrl (org repo : JStr) : JStr :=
  "https://github.com/".data ++ org ++ "/".data ++ repo ++ ".git".data

/-- The URL of the user's fork, installed as `origin` by `gh repo
clone`. -/
def forkUrl (user repo : JStr) : JStr :=
  "https://github.com/".data ++ user ++ "/".data ++ repo ++ ".git".data

/-- `updateUpstreamRemote` (`repository.mjs` lines 124-154): read the
current `upstream` URL (empty string when the remote is absent); when it
differs from the expected URL, `set-url` an existing remote or `add` a
missing one.  Returns `false` only when a git command fails — in this
model, only when `remote add` hits an existing remote whose recorded URL
is the empty string. -/
def updateUpstreamRemote (org repo : JStr) (rs : RepoState) : Bool × RepoState :=
  let expected := upstreamUrl org repo
  let lk := lookupAssoc rs.remotes upstreamName
  let current := lk.getD []
  if current = expected then (true, rs)
  else if current ≠ [] then
    (true, ⟨setRemoteUrl rs.remotes upstreamName expected⟩)
  else
    match lk with
    | some _ => (false, rs)
    | none => (true, ⟨rs.remotes ++ [(upstreamName, expected)]⟩)

/-- `configureUpstream` (`repository.mjs` lines 87-115): `set-url` when
the `upstream` remote exists, otherwise `add` it. -/
def configureUpstream (org repo : JStr) (rs : RepoState) : Bool × RepoState :=
  let url := upstreamUrl org repo
  match lookupAssoc rs.remotes upstreamName with
  | some _ => (true, ⟨setRemoteUrl rs.remotes upstreamName url⟩)
  | none => (true, ⟨rs.remotes ++ [(upstreamName, url)]⟩)

/-- External collaborators of the provisioner, fixed for the duration of
a run.  `user = none` means `gh api user` fails (the AuthError path,
which *throws*). -/
structure Env where
  user : Option JStr
  hasFork : JStr → Bool
  forkOk : JStr → Bool
  cloneOk : JStr → Bool
  worktreeOk : JStr → JStr → Bool

set_option linter.unusedVariables false in
/-- `ensureRepoExists` (`repository.mjs` lines 164-204).  `none` models
the uncaught exception thrown by `getCurrentGitHubUser`; `some (ok, ws)`
models a normal return of `ok` with workspace state `ws`.  On the
fast path (directory already present) the boolean result of
`updateUpstreamRemote` is ignored and `true` is returned, exactly as in
the source.  The `shallowClone` flag selects `--depth=1` only and does
not affect the modelled state. -/
def ensureRepoExists (env : Env) (org repo : JStr) (shallowClone : Bool)
    (ws : Workspace) : Option (Bool × Workspace) :=
  match lookupAssoc ws repo with
  | some rs =>
    let r := updateUpstreamRemote org repo rs
    some (true, setRepo ws repo r.2)
  | none =>
    match env.user with
    | none => none
    | some user =>
      if !env.hasFork repo && !env.forkOk repo then some (false, ws)
      else if !env.cloneOk repo then some (false, ws)
      else
        let cloned : RepoState := ⟨[(originName, forkUrl user repo)]⟩
        let c := configureUpstream org repo cloned
        if c.1 then some (true, setRepo ws repo c.2)
        else some (false, setRepo ws repo c.2)
  -- `shallowClone` only selects `--depth=1` and does not affect the
  -- modelled state.

/-- All remote names of every provisioned repository are distinct. -/
def remoteNamesNodup (ws : Workspace) : Prop :=
  ∀ p ∈ ws, (p.2.remotes.map Prod.fst).Nodup

/-! ## Theorems: provisioner idempotence (C4) -/

lemma lookupAssoc_setRepo_self (ws : Workspace) (repo : JStr) (rs : RepoState) :
    lookupAssoc (setRepo ws repo rs) repo = some rs := by
  induction ws with
  | nil => simp [setRepo, lookupAssoc]
  | cons p rest ih =>
    obtain ⟨r, s⟩ := p
    by_cases hr : r = repo <;> simp [setRepo, lookupAssoc, hr, ih]

lemma setRepo_lookup_self {ws : Workspace} {repo : JStr} {rs : RepoState}
    (h : lookupAssoc ws repo = some rs) : setRepo ws repo rs = ws := by
  induction ws with
  | nil => simp [lookupAssoc] at h
  | cons p rest ih =>
    obtain ⟨r, s⟩ := p
    by_cases hr : r = repo
    · simp only [lookupAssoc, hr, if_true] at h
      obtain rfl : s = rs := by injection h
      simp [setRepo, hr]
    · simp only [lookupAssoc, hr, if_false] at h
      simp [setRepo, hr, ih h]

lemma mem_setRepo {ws : Workspace} {repo : JStr} {rs : RepoState} {p}
    (h : p ∈ setRepo ws repo rs) : p.2 = rs ∨ p ∈ ws := by
  induction ws with
  | nil =>
    simp only [setRepo, List.mem_singleton] at h
    exact Or.inl (by simp [h])
  | cons q rest ih =>
    obtain ⟨r, s⟩ := q
    by_cases hr : r = repo
    · simp only [setRepo, hr, if_true, List.mem_cons] at h
      rcases h with h | h
      · exact Or.inl (by simp [h])
      · exact Or.inr (List.mem_cons_of_mem _ h)
    · simp only [setRepo, hr, if_false, List.mem_cons] at h
      rcases h with h | h
      · exact Or.inr (by simp [h])
      · rcases ih h with h' | h'
        · exact Or.inl h'
        · exact Or.inr (List.mem_cons_of_mem _ h')

lemma lookupAssoc_mem {α : Type} {l : List (JStr × α)} {n : JStr} {v : α}
    (h : lookupAssoc l n = some v) : (n, v) ∈ l := by
  induction l with
  | nil => simp [lookupAssoc] at h
  | cons p rest ih =>
    obtain ⟨m, u⟩ := p
    by_cases hm : m = n
    · simp only [lookupAssoc, hm, if_true] at h
      obtain rfl : u = v := by injection h
      simp [hm]
    · simp only [lookupAssoc, hm, if_false] at h
      exact List.mem_cons_of_mem _ (ih h)

lemma lookupAssoc_none_not_mem {α : Type} {l : List (JStr × α)} {n : JStr}
    (h : lookupAssoc l n = none) : n ∉ l.map Prod.fst := by
  induction l with
  | nil => simp
  | cons p rest ih =>
    obtain ⟨m, u⟩ := p
    by_cases hm : m = n
    · simp [lookupAssoc, hm] at h
    · simp only [lookupAssoc, hm, if_false] at h
      simp only [List.map_cons, List.mem_cons]
      rintro (h' | h')
      · exact hm h'.symm
      · exact ih h h'

lemma lookupAssoc_setRemoteUrl (l : List (JStr × JStr)) (n url : JStr) :
    lookupAssoc (setRemoteUrl l n url) n = (lookupAssoc l n).map fun _ => url := by
  induction l with
  | nil => simp [setRemoteUrl, lookupAssoc]
  | cons p rest ih =>
    obtain ⟨m, u⟩ := p
    by_cases hm : m = n <;> simp [setRemoteUrl, lookupAssoc, hm, ih]

lemma map_fst_setRemoteUrl (l : List (JStr × JStr)) (n url : JStr) :
    (setRemoteUrl l n url).map Prod.fst = l.map Prod.fst := by
  induction l with
  | nil => simp [setRemoteUrl]
  | cons p rest ih =>
    obtain ⟨m, u⟩ := p
    by_cases hm : m = n <;> simp [setRemoteUrl, hm, ih]

lemma lookupAssoc_append_nil {α : Type} {l : List (JStr × α)} {n : JStr}
    (h : lookupAssoc l n = none) (v : α) :
    lookupAssoc (l ++ [(n, v)]) n = some v := by
  induction l with
  | nil => simp [lookupAssoc]
  | cons p rest ih =>
    obtain ⟨m, u⟩ := p
    by_cases hm : m = n
    · simp [lookupAssoc, hm] at h
    · simp only [lookupAssoc, hm, if_false] at h
      simp [lookupAssoc, hm, ih h]

lemma upstreamUrl_ne_nil (org repo : JStr) : upstreamUrl org repo ≠ [] := by
  intro h
  have h19 : ("https://github.com/".data).length = 19 := by decide
  have := congrArg List.length h
  simp only [upstreamUrl, List.length_append, List.length_nil, h19] at this
  omega

/-- When the `upstream` remote already records the expected URL the
reconciliation is a no-op returning `true`. -/
lemma updateUpstreamRemote_of_correct {org repo : JStr} {rs : RepoState}
    (h : lookupAssoc rs.remotes upstreamName = some (upstreamUrl org repo)) :
    updateUpstreamRemote org repo rs = (true, rs) := by
  unfold updateUpstreamRemote
  simp [h]

/-- After one reconciliation, either the `upstream` remote records the
expected URL, or the state was returned unchanged. -/
lemma updateUpstreamRemote_post (org repo : JStr) (rs : RepoState) :
    lookupAssoc (updateUpstreamRemote org repo rs).2.remotes upstreamName =
        some (upstreamUrl org repo) ∨
      (updateUpstreamRemote org repo rs).2 = rs := by
  unfold updateUpstreamRemote
  cases hlk : lookupAssoc rs.remotes upstreamName with
  | none =>
    have hne : upstreamUrl org repo ≠ ([] : JStr) := upstreamUrl_ne_nil org repo
    simp only [hlk, Option.getD_none]
    rw [if_neg (fun hc => hne hc.symm), if_neg (by simp)]
    exact Or.inl (lookupAssoc_append_nil hlk _)
  | some u =>
    by_cases hu : u = upstreamUrl org repo
    · simp [hlk, hu]
    · by_cases hnil : u = []
      · subst hnil
        simp only [hlk, Option.getD_some]
        rw [if_neg hu, if_neg (by simp)]
        exact Or.inr rfl
      · simp only [hlk, Option.getD_some]
        rw [if_neg hu, if_pos hnil]
        refine Or.inl ?_
        rw [lookupAssoc_setRemoteUrl, hlk]
        rfl

/-- After one reconciliation the `upstream` remote needs no further
change: a second `updateUpstreamRemote` leaves the state untouched. -/
lemma updateUpstreamRemote_fixpoint (org repo : JStr) (rs : RepoState) :
    (updateUpstreamRemote org repo
        (updateUpstreamRemote org repo rs).2).2 =
      (updateUpstreamRemote org repo rs).2 := by
  rcases updateUpstreamRemote_post org repo rs with h | h
  · rw [updateUpstreamRemote_of_correct h]
  · rw [h]
    conv_rhs => rw [← h]

lemma updateUpstreamRemote_nodup (org repo : JStr) {rs : RepoState}
    (h : (rs.remotes.map Prod.fst).Nodup) :
    ((updateUpstreamRemote org repo rs).2.remotes.map Prod.fst).Nodup := by
  unfold updateUpstreamRemote
  cases hlk : lookupAssoc rs.remotes upstreamName with
  | none =>
    have hne : upstreamUrl org repo ≠ ([] : JStr) := upstreamUrl_ne_nil org repo
    simp only [hlk, Option.getD_none]
    rw [if_neg (fun hc => hne hc.symm), if_neg (by simp)]
    have hnm := lookupAssoc_none_not_mem hlk
    simp [List.nodup_append, h, hnm]
  | some u =>
    by_cases hu : u = upstreamUrl org repo
    · simpa [hlk, hu] using h
    · by_cases hnil : u = []
      · subst hnil
        simp only [hlk, Option.getD_some]
        rw [if_neg hu, if_neg (by simp)]
        exact h
      · simp only [hlk, Option.getD_some]
        rw [if_neg hu, if_pos hnil]
        simpa [map_fst_setRemoteUrl] using h

/-- **C4.** The provisioner is idempotent: a call that returned `true`
leaves the workspace in a state on which a second call with the same
(org, repo) and the same external environment performs only the
fast-path upstream reconciliation, changes nothing, and again returns
`true`; and calls never introduce duplicate remote names. -/
theorem ensureRepoExists_idempotent (env : Env) (org repo : JStr)
    (sh : Bool) (ws0 ws1 : Workspace)
    (h : ensureRepoExists env org repo sh ws0 = some (true, ws1)) :
    ensureRepoExists env org repo sh ws1 = some (true, ws1) ∧
    (remoteNamesNodup ws0 → remoteNamesNodup ws1) := by
  cases hlk : lookupAssoc ws0 repo with
  | some rs =>
    simp only [ensureRepoExists, hlk, Option.some_inj, Prod.mk.injEq,
      true_and] at h
    obtain rfl :
        ws1 = setRepo ws0 repo (updateUpstreamRemote org repo rs).2 := h.symm
    constructor
    · have hlk1 := lookupAssoc_setRepo_self ws0 repo
        (updateUpstreamRemote org repo rs).2
      simp only [ensureRepoExists, hlk1, Option.some_inj, Prod.mk.injEq,
        true_and]
      rw [updateUpstreamRemote_fixpoint]
      exact setRepo_lookup_self hlk1
    · intro hnod p hp
      rcases mem_setRepo hp with h2 | h2
      · rw [h2]
        exact updateUpstreamRemote_nodup org repo
          (hnod (repo, rs) (lookupAssoc_mem hlk))
      · exact hnod p h2
  | none =>
    cases huser : env.user with
    | none => simp [ensureRepoExists, hlk, huser] at h
    | some user =>
      simp only [ensureRepoExists, hlk, huser] at h
      by_cases hf : !env.hasFork repo && !env.forkOk repo
      · rw [if_pos hf] at h; simp at h
      · rw [if_neg hf] at h
        by_cases hc : !env.cloneOk repo
        · rw [if_pos hc] at h; simp at h
        · rw [if_neg hc] at h
          have horigin : lookupAssoc [(originName, forkUrl user repo)]
              upstreamName = none := by
            have : originName ≠ upstreamName := by decide
            simp [lookupAssoc, this]
          simp only [configureUpstream, horigin] at h
          simp only [if_true, Option.some_inj, Prod.mk.injEq, true_and] at h
          set rs1 : RepoState :=
            ⟨[(originName, forkUrl user repo)] ++
              [(upstreamName, upstreamUrl org repo)]⟩ with hrs1
          obtain rfl : ws1 = setRepo ws0 repo rs1 := h.symm
          have hlk1 := lookupAssoc_setRepo_self ws0 repo rs1
          have hup : lookupAssoc rs1.remotes upstreamName =
              some (upstreamUrl org repo) := by
            simp only [hrs1]
            have : originName ≠ upstreamName := by decide
            simp [lookupAssoc, this]
          constructor
          · simp only [ensureRepoExists, hlk1, Option.some_inj,
              Prod.mk.injEq, true_and]
            rw [updateUpstreamRemote_of_correct hup]
            exact setRepo_lookup_self hlk1
          · intro hnod p hp
            rcases mem_setRepo hp with h2 | h2
            · rw [h2, hrs1]
              have : originName ≠ upstreamName := by decide
              simp [this]
            · exact hnod p h2

/-- Concrete inputs for the C4 witness: a workspace where `svc` is
already provisioned but has no `upstream` remote yet. -/
def allOkEnv : Env :=
  ⟨some "user".data, fun _ => true, fun _ => true, fun _ => true,
   fun _ _ => true⟩

def c4ws0 : Workspace := [("svc".data, ⟨[]⟩)]

def c4ws1 : Workspace :=
  [("svc".data, ⟨[(upstreamName, "https://github.com/test/svc.git".data)]⟩)]

theorem ensureRepoExists_idempotent_witness :
    ensureRepoExists allOkEnv "test".data "svc".data true c4ws0 =
        some (true, c4ws1) ∧
    (ensureRepoExists allOkEnv "test".data "svc".data true c4ws1 =
        some (true, c4ws1) ∧
     (remoteNamesNodup c4ws0 → remoteNamesNodup c4ws1)) :=
  ⟨by decide,
   ensureRepoExists_idempotent allOkEnv "test".data "svc".data true c4ws0 c4ws1
     (by decide)⟩

/-! ## Task artifact names (`src/lib/taskgen.mjs`)

`String(taskCounter).padStart(3, '0')` followed by `_repo_branch`.  The
decimal rendering of the counter is modelled by `natDigits` (a
fuel-indexed structural recursion so that it evaluates by `decide`),
together with a value function used to prove that distinct counters give
distinct names. -/

/-- Decimal digits of `n`, most significant first, with `fuel ≥ n`
sufficient. -/
def natDigitsAux : Nat → Nat → List Char
  | 0, _ => []
  | fuel + 1, n =>
    if n < 10 then [Nat.digitChar n]
    else natDigitsAux fuel (n / 10) ++ [Nat.digitChar (n % 10)]

/-- The JavaScript `String(n)` for a natural number: decimal digits, most
significant first. -/
def natDigits (n : Nat) : List Char := natDigitsAux (n + 1) n

/-- `String.prototype.padStart(3, '0')`. -/
def padStart3 (l : List Char) : List Char :=
  List.replicate (3 - l.length) '0' ++ l

/-- Numeric value of a digit character. -/
def digitVal (c : Char) : Nat := c.toNat - '0'.toNat

/-- Decimal value of a digit string (leading zeros ignored). -/
def digitsVal (l : List Char) : Nat :=
  l.foldl (fun a c => 10 * a + digitVal c) 0

/-- `sanitizeBranchName` (`taskgen.mjs` lines 206-208):
`branch.replace(/\//g, '_')`. -/
def sanitizeBranchName (branch : JStr) : JStr :=
  branch.map fun c => if c = '/' then '_' else c

/-- The common identifier core
`${String(counter).padStart(3,'0')}_${repo}_${branchComponent}`. -/
def taskBaseName (counter : Nat) (repo branchComponent : JStr) : JStr :=
  padStart3 (natDigits counter) ++ '_' :: repo ++ '_' :: branchComponent

/-- Shared-clone task file name (`taskgen.mjs` line 141): the *raw*
branch is interpolated, then `.md` appended. -/
def sharedTaskFileName (counter : Nat) (repo branch : JStr) : JStr :=
  taskBaseName counter repo branch ++ ".md".data

/-- Worktree task directory name (`taskgen.mjs` lines 366-367): the
branch is sanitized first. -/
def worktreeTaskDirName (counter : Nat) (repo branch : JStr) : JStr :=
  taskBaseName counter repo (sanitizeBranchName branch)

/-- The counter encoded in a task identifier: value of the maximal
leading digit run. -/
def nameCounter (name : JStr) : Nat :=
  digitsVal (name.takeWhile Char.isDigit)

lemma digitVal_digitChar {n : Nat} (h : n < 10) :
    digitVal (Nat.digitChar n) = n := by
  interval_cases n <;> decide

lemma isDigit_digitChar {n : Nat} (h : n < 10) :
    (Nat.digitChar n).isDigit = true := by
  interval_cases n <;> decide

lemma digitsVal_append_singleton (l : List Char) (c : Char) :
    digitsVal (l ++ [c]) = 10 * digitsVal l + digitVal c := by
  simp [digitsVal, List.foldl_append]

lemma digitsVal_natDigitsAux {fuel n : Nat} (h : n < fuel) :
    digitsVal (natDigitsAux fuel n) = n := by
  induction fuel generalizing n with
  | zero => omega
  | succ fuel ih =>
    by_cases h10 : n < 10
    · simp [natDigitsAux, h10, digitsVal, digitVal_digitChar h10]
    · have hdiv : n / 10 < fuel := by
        have := Nat.div_lt_self (by omega : 0 < n) (by omega : 1 < 10)
        omega
      simp only [natDigitsAux, h10, if_false]
      rw [digitsVal_append_singleton, ih hdiv,
        digitVal_digitChar (Nat.mod_lt n (by omega))]
      omega

lemma isDigit_natDigitsAux {fuel n : Nat} (h : n < fuel) :
    ∀ c ∈ natDigitsAux fuel n, c.isDigit = true := by
  induction fuel generalizing n with
  | zero => omega
  | succ fuel ih =>
    by_cases h10 : n < 10
    · simp [natDigitsAux, h10, isDigit_digitChar h10]
    · have hdiv : n / 10 < fuel := by
        have := Nat.div_lt_self (by omega : 0 < n) (by omega : 1 < 10)
        omega
      simp only [natDigitsAux, h10, if_false]
      intro c hc
      rcases List.mem_append.mp hc with hc | hc
      · exact ih hdiv c hc
      · rw [List.mem_singleton.mp hc]
        exact isDigit_digitChar (Nat.mod_lt n (by omega))

lemma digitsVal_natDigits (n : Nat) : digitsVal (natDigits n) = n :=
  digitsVal_natDigitsAux (Nat.lt_succ_self n)

lemma isDigit_natDigits (n : Nat) :
    ∀ c ∈ natDigits n, c.isDigit = true :=
  isDigit_natDigitsAux (Nat.lt_succ_self n)

lemma digitsVal_replicate_zero (k : Nat) (l : List Char) :
    digitsVal (List.replicate k '0' ++ l) = digitsVal l := by
  induction k with
  | zero => simp
  | succ k ih =>
    rw [List.replicate_succ, List.cons_append]
    simpa [digitsVal, digitVal] using ih

lemma digitsVal_padStart3 (l : List Char) :
    digitsVal (padStart3 l) = digitsVal l :=
  digitsVal_replicate_zero _ l

lemma isDigit_padStart3_natDigits (n : Nat) :
    ∀ c ∈ padStart3 (natDigits n), c.isDigit = true := by
  intro c hc
  rcases List.mem_append.mp hc with hc | hc
  · rw [List.eq_of_mem_replicate hc]; decide
  · exact isDigit_natDigits n c hc

lemma takeWhile_digits_append (l1 l2 : List Char)
    (h1 : ∀ c ∈ l1, c.isDigit = true) :
    (l1 ++ '_' :: l2).takeWhile Char.isDigit = l1 := by
  induction l1 with
  | nil => simp [List.takeWhile]
  | cons c rest ih =>
    have hc : c.isDigit = true := h1 c (List.mem_cons_self c rest)
    have hrest : ∀ x ∈ rest, x.isDigit = true := fun x hx =>
      h1 x (List.mem_cons_of_mem c hx)
    simp [List.takeWhile_cons, hc, ih hrest]

/-- The counter is recoverable from every identifier: it is the value of
the leading digit run, hence two identifiers with different counters are
always different names (they never collide). -/
lemma nameCounter_taskBaseName (c : Nat) (r b : JStr) :
    nameCounter (taskBaseName c r b) = c := by
  unfold nameCounter taskBaseName
  rw [List.append_assoc, List.cons_append,
    takeWhile_digits_append _ _ (isDigit_padStart3_natDigits c),
    digitsVal_padStart3, digitsVal_natDigits]

lemma nameCounter_sharedTaskFileName (c : Nat) (r b : JStr) :
    nameCounter (sharedTaskFileName c r b) = c := by
  unfold nameCounter sharedTaskFileName taskBaseName
  rw [List.append_assoc, List.append_assoc, List.cons_append,
    takeWhile_digits_append _ _ (isDigit_padStart3_natDigits c),
    digitsVal_padStart3, digitsVal_natDigits]

lemma nameCounter_worktreeTaskDirName (c : Nat) (r b : JStr) :
    nameCounter (worktreeTaskDirName c r b) = c :=
  nameCounter_taskBaseName c r (sanitizeBranchName b)

/-! ## Task generation (`generateTasks`, both variants of
`src/lib/taskgen.mjs`)

The loop state carries the workspace, the artifact counter (starting at
1), the success count and the contents of the output directory, which the
function first deletes and recreates (`fs.remove` + `fs.ensureDir`).
Only the written task documents are tracked as directory contents. -/

structure GenState where
  ws : Workspace
  counter : Nat
  success : Nat
  dir : List JStr
deriving DecidableEq, Repr

/-- Bare `fs.writeFile` (fs-extra): it creates **no** parent
directories.  A name containing a slash refers to a subdirectory of the
freshly recreated (and therefore flat) output directory; that
subdirectory does not exist, so the write throws ENOENT (`none`).
Otherwise an existing file of the same name is overwritten in place and
a new name is appended to the directory listing. -/
def writeFile (dir : List JStr) (name : JStr) : Option (List JStr) :=
  if '/' ∈ name then none
  else if name ∈ dir then some dir else some (dir ++ [name])

/-- `fs.writeFile` into a location whose parent directory has already
been created: in worktree mode `createWorktree` runs
`fs.ensureDir(taskDirPath)` (`taskgen.mjs` line 223) before `task.md` is
written inside it, so this write cannot fail with ENOENT; an existing
entry is overwritten in place, a new one is appended. -/
def writeFileEnsured (dir : List JStr) (name : JStr) : List JStr :=
  if name ∈ dir then dir else dir ++ [name]

set_option linter.unusedVariables false in
/-- `await fs.remove(outputDir); await fs.ensureDir(outputDir)`
(`taskgen.mjs` lines 115-118 and 325-328): whatever the directory held
before, it is empty afterwards. -/
def clearDir (prevContents : List JStr) : List JStr := []

/-- One iteration of the shared-clone `generateTasks` loop
(`taskgen.mjs` lines 128-150): provision, skip the job on a `false`
return, otherwise write `${counter}_${repo}_${branch}.md` (raw branch)
and bump counter and success count.  `none` propagates an uncaught
exception: the AuthError throw from provisioning, or the ENOENT throw of
`fs.writeFile` when the raw branch contains a slash (no parent
directory exists inside the freshly recreated output directory). -/
def genStepShared (env : Env) (sh : Bool) (st : GenState) (j : Job) :
    Option GenState :=
  match ensureRepoExists env j.org j.repo sh st.ws with
  | none => none
  | some (false, ws') => some { st with ws := ws' }
  | some (true, ws') =>
    match writeFile st.dir (sharedTaskFileName st.counter j.repo j.branch) with
    | none => none
    | some dir' => some ⟨ws', st.counter + 1, st.success + 1, dir'⟩

def genLoopShared (env : Env) (sh : Bool) : GenState → List Job → Option GenState
  | st, [] => some st
  | st, j :: rest =>
    match genStepShared env sh st j with
    | none => none
    | some st' => genLoopShared env sh st' rest

/-- Shared-clone `generateTasks` (`taskgen.mjs` lines 85-153). -/
def generateTasksShared (env : Env) (sh : Bool) (ws0 : Workspace)
    (prevDir : List JStr) (targets : List Job) : Option GenState :=
  genLoopShared env sh ⟨ws0, 1, 0, clearDir prevDir⟩ targets

/-- One iteration of the worktree `generateTasks` loop (`taskgen.mjs`
lines 353-389): provision (shallow flag defaulted to `true` at this call
site), skip on failure, then attempt the worktree; on worktree failure
skip the job, otherwise write the task document into
`${counter}_${repo}_${sanitizedBranch}/task.md`. -/
def genStepWorktree (env : Env) (st : GenState) (j : Job) : Option GenState :=
  match ensureRepoExists env j.org j.repo true st.ws with
  | none => none
  | some (false, ws') => some { st with ws := ws' }
  | some (true, ws') =>
    if env.worktreeOk j.repo j.branch then
      some ⟨ws', st.counter + 1, st.success + 1,
        writeFileEnsured st.dir (worktreeTaskDirName st.counter j.repo j.branch)⟩
    else some { st with ws := ws' }

def genLoopWorktree (env : Env) : GenState → List Job → Option GenState
  | st, [] => some st
  | st, j :: rest =>
    match genStepWorktree env st j with
    | none => none
    | some st' => genLoopWorktree env st' rest

/-- Worktree `generateTasks` (`taskgen.mjs` lines 295-392). -/
def generateTasksWorktree (env : Env) (ws0 : Workspace)
    (prevDir : List JStr) (targets : List Job) : Option GenState :=
  genLoopWorktree env ⟨ws0, 1, 0, clearDir prevDir⟩ targets

/-- The artifact names produced for a run of consecutive counters
starting at `c`, by naming scheme `f`. -/
def namesFrom (f : Nat → Job → JStr) : Nat → List Job → List JStr
  | _, [] => []
  | c, j :: js => f c j :: namesFrom f (c + 1) js

lemma length_namesFrom (f : Nat → Job → JStr) (c : Nat) (js : List Job) :
    (namesFrom f c js).length = js.length := by
  induction js generalizing c with
  | nil => rfl
  | cons j js ih => simp [namesFrom, ih]

/-- The worktree generation loop, characterised: when it returns, some
subsequence `jobs` of the targets (the jobs whose provisioning and
worktree creation succeeded) produced exactly one artifact each, named
with consecutive counters starting at the entry counter, appended in
order to the directory contents. -/
lemma genLoopWorktree_spec (env : Env) (targets : List Job)
    (st st' : GenState)
    (h : genLoopWorktree env st targets = some st')
    (hbound : ∀ x ∈ st.dir, nameCounter x < st.counter) :
    ∃ jobs : List Job, jobs.Sublist targets ∧
      st'.success = st.success + jobs.length ∧
      st'.counter = st.counter + jobs.length ∧
      st'.dir = st.dir ++
        namesFrom (fun c j => worktreeTaskDirName c j.repo j.branch)
          st.counter jobs := by
  induction targets generalizing st with
  | nil =>
    obtain rfl : st = st' := by simpa [genLoopWorktree] using h
    exact ⟨[], List.nil_sublist _, by simp [namesFrom]⟩
  | cons j rest ih =>
    simp only [genLoopWorktree] at h
    cases hstep : genStepWorktree env st j with
    | none => rw [hstep] at h; exact absurd h (by simp)
    | some st1 =>
      rw [hstep] at h
      simp only [genStepWorktree] at hstep
      cases hens : ensureRepoExists env j.org j.repo true st.ws with
      | none => rw [hens] at hstep; exact absurd hstep (by simp)
      | some p =>
        obtain ⟨ok, ws'⟩ := p
        rw [hens] at hstep
        cases ok with
        | false =>
          simp at hstep
          obtain rfl : st1 = { st with ws := ws' } := hstep.symm
          obtain ⟨jobs, hsub, hsucc, hcnt, hdir⟩ := ih _ h hbound
          exact ⟨jobs, hsub.cons j, hsucc, hcnt, hdir⟩
        | true =>
          by_cases hwt : env.worktreeOk j.repo j.branch
          · have hname :
                worktreeTaskDirName st.counter j.repo j.branch ∉ st.dir := by
              intro hmem
              have := hbound _ hmem
              rw [nameCounter_worktreeTaskDirName] at this
              omega
            simp [hwt, writeFileEnsured, hname] at hstep
            obtain rfl : st1 =
                ⟨ws', st.counter + 1, st.success + 1,
                  st.dir ++ [worktreeTaskDirName st.counter j.repo j.branch]⟩ :=
              hstep.symm
            have hbound1 : ∀ x ∈ st.dir ++
                [worktreeTaskDirName st.counter j.repo j.branch],
                nameCounter x < st.counter + 1 := by
              intro x hx
              rcases List.mem_append.mp hx with hx | hx
              · exact Nat.lt_succ_of_lt (hbound x hx)
              · rw [List.mem_singleton.mp hx,
                  nameCounter_worktreeTaskDirName]
                omega
            obtain ⟨jobs, hsub, hsucc, hcnt, hdir⟩ := ih _ h hbound1
            refine ⟨j :: jobs, hsub.cons₂ j, ?_, ?_, ?_⟩
            · simp only [hsucc, List.length_cons]; omega
            · simp only [hcnt, List.length_cons]; omega
            · rw [hdir, namesFrom, List.append_assoc]
              rfl
          · simp [hwt] at hstep
            obtain rfl : st1 = { st with ws := ws' } := hstep.symm
            obtain ⟨jobs, hsub, hsucc, hcnt, hdir⟩ := ih _ h hbound
            exact ⟨jobs, hsub.cons j, hsucc, hcnt, hdir⟩

lemma writeFile_eq_some {dir : List JStr} {name : JStr} {dir' : List JStr}
    (h : writeFile dir name = some dir') :
    '/' ∉ name ∧ dir' = (if name ∈ dir then dir else dir ++ [name]) := by
  unfold writeFile at h
  by_cases hs : '/' ∈ name
  · rw [if_pos hs] at h
    exact absurd h (by simp)
  · rw [if_neg hs] at h
    refine ⟨hs, ?_⟩
    by_cases hm : name ∈ dir
    · rw [if_pos hm] at h ⊢
      exact (Option.some_inj.mp h).symm
    · rw [if_neg hm] at h ⊢
      exact (Option.some_inj.mp h).symm

/-- The shared-clone generation loop, characterised like
`genLoopWorktree_spec` (here a job succeeds exactly when provisioning
returns `true`, and the raw branch is used in the file name).  Because
the run returned normally, every written name passed `fs.writeFile`:
none of them contains a slash. -/
lemma genLoopShared_spec (env : Env) (sh : Bool) (targets : List Job)
    (st st' : GenState)
    (h : genLoopShared env sh st targets = some st')
    (hbound : ∀ x ∈ st.dir, nameCounter x < st.counter) :
    ∃ jobs : List Job, jobs.Sublist targets ∧
      st'.success = st.success + jobs.length ∧
      st'.counter = st.counter + jobs.length ∧
      st'.dir = st.dir ++
        namesFrom (fun c j => sharedTaskFileName c j.repo j.branch)
          st.counter jobs ∧
      ∀ x ∈ namesFrom (fun c j => sharedTaskFileName c j.repo j.branch)
          st.counter jobs, '/' ∉ x := by
  induction targets generalizing st with
  | nil =>
    obtain rfl : st = st' := by simpa [genLoopShared] using h
    exact ⟨[], List.nil_sublist _, by simp [namesFrom]⟩
  | cons j rest ih =>
    simp only [genLoopShared] at h
    cases hstep : genStepShared env sh st j with
    | none => rw [hstep] at h; exact absurd h (by simp)
    | some st1 =>
      rw [hstep] at h
      simp only [genStepShared] at hstep
      cases hens : ensureRepoExists env j.org j.repo sh st.ws with
      | none => rw [hens] at hstep; exact absurd hstep (by simp)
      | some p =>
        obtain ⟨ok, ws'⟩ := p
        rw [hens] at hstep
        cases ok with
        | false =>
          simp at hstep
          obtain rfl : st1 = { st with ws := ws' } := hstep.symm
          obtain ⟨jobs, hsub, hsucc, hcnt, hdir, hsl⟩ := ih _ h hbound
          exact ⟨jobs, hsub.cons j, hsucc, hcnt, hdir, hsl⟩
        | true =>
          have hname :
              sharedTaskFileName st.counter j.repo j.branch ∉ st.dir := by
            intro hmem
            have := hbound _ hmem
            rw [nameCounter_sharedTaskFileName] at this
            omega
          cases hw : writeFile st.dir
              (sharedTaskFileName st.counter j.repo j.branch) with
          | none => rw [hw] at hstep; simp at hstep
          | some dir' =>
            rw [hw] at hstep
            obtain ⟨hslash, hdir'⟩ := writeFile_eq_some hw
            rw [if_neg hname] at hdir'
            subst hdir'
            simp at hstep
            obtain rfl : st1 =
                ⟨ws', st.counter + 1, st.success + 1,
                  st.dir ++ [sharedTaskFileName st.counter j.repo j.branch]⟩ :=
              hstep.symm
            have hbound1 : ∀ x ∈ st.dir ++
                [sharedTaskFileName st.counter j.repo j.branch],
                nameCounter x < st.counter + 1 := by
              intro x hx
              rcases List.mem_append.mp hx with hx | hx
              · exact Nat.lt_succ_of_lt (hbound x hx)
              · rw [List.mem_singleton.mp hx, nameCounter_sharedTaskFileName]
                omega
            obtain ⟨jobs, hsub, hsucc, hcnt, hdir, hsl⟩ := ih _ h hbound1
            refine ⟨j :: jobs, hsub.cons₂ j, ?_, ?_, ?_, ?_⟩
            · simp only [hsucc, List.length_cons]; omega
            · simp only [hcnt, List.length_cons]; omega
            · rw [hdir, namesFrom, List.append_assoc]
              rfl
            · intro x hx
              simp only [namesFrom, List.mem_cons] at hx
              rcases hx with hx | hx
              · rw [hx]; exact hslash
              · exact hsl x hx

/-! ## Theorems: per-job failure isolation (C5) -/

lemma ensureRepoExists_isSome {env : Env} {u : JStr} (hu : env.user = some u)
    (org repo : JStr) (sh : Bool) (ws : Workspace) :
    (ensureRepoExists env org repo sh ws).isSome = true := by
  cases hlk : lookupAssoc ws repo with
  | some rs => simp [ensureRepoExists, hlk]
  | none =>
    simp only [ensureRepoExists, hlk, hu]
    by_cases hf : !env.hasFork repo && !env.forkOk repo
    · rw [if_pos hf]; rfl
    · rw [if_neg hf]
      by_cases hc : !env.cloneOk repo
      · rw [if_pos hc]; rfl
      · rw [if_neg hc]
        by_cases hcfg :
            (configureUpstream org repo ⟨[(originName, forkUrl u repo)]⟩).1
        · rw [if_pos hcfg]; rfl
        · rw [if_neg hcfg]; rfl

/-- **C5 counterexample.**  With an unresolvable hosting-service identity
(`gh api user` fails) and a repository that is not yet provisioned, the
very first job's provisioning *throws* — `getCurrentGitHubUser`'s
exception is caught neither by `ensureRepoExists` nor by `generateTasks`
— and the whole generation run aborts (`none`): the second job is never
processed, contradicting the claim that an AuthError only skips the
affected job. -/
def noAuthEnv : Env :=
  ⟨none, fun _ => true, fun _ => true, fun _ => true, fun _ _ => true⟩

def plainJob : Job := ⟨"acme".data, "svc".data, "main".data⟩

def otherJob : Job := ⟨"acme".data, "lib".data, "main".data⟩

theorem authFailure_aborts_generation :
    generateTasksShared noAuthEnv true [] [] [plainJob, otherJob] = none := by
  decide

/-- **C5 amended.**  A provisioning step failure that is reported by a
`false` return value (fork creation, clone, or upstream configuration
failed) causes only the affected job to be skipped, with the generation
loop continuing on the remaining jobs; but a failure to resolve the
hosting-service identity (AuthError) propagates as an uncaught exception
and aborts the whole generation run on the spot — the remaining jobs are
never processed. -/
theorem provisionFailure_skips_authFailure_aborts (env : Env) (sh : Bool) :
    (∀ (st : GenState) (j : Job) (rest : List Job) (ws' : Workspace),
        ensureRepoExists env j.org j.repo sh st.ws = some (false, ws') →
        genLoopShared env sh st (j :: rest) =
          genLoopShared env sh { st with ws := ws' } rest) ∧
    (∀ (st : GenState) (j : Job) (rest : List Job),
        ensureRepoExists env j.org j.repo sh st.ws = none →
        genLoopShared env sh st (j :: rest) = none) := by
  constructor
  · intro st j rest ws' hens
    simp [genLoopShared, genStepShared, hens]
  · intro st j rest hens
    simp [genLoopShared, genStepShared, hens]

/-- Environment for the C5 witness: identity resolvable, but fork
creation always fails, so every unprovisioned repository's job is
skipped. -/
def forkFailEnv : Env :=
  ⟨some "user".data, fun _ => false, fun _ => false, fun _ => true,
   fun _ _ => true⟩

def c5st0 : GenState := ⟨[], 1, 0, []⟩

theorem provisionFailure_skips_witness :
    (ensureRepoExists forkFailEnv plainJob.org plainJob.repo true c5st0.ws =
        some (false, []) ∧
     genLoopShared forkFailEnv true c5st0 (plainJob :: [otherJob]) =
       genLoopShared forkFailEnv true { c5st0 with ws := [] } [otherJob]) ∧
    (ensureRepoExists noAuthEnv plainJob.org plainJob.repo true c5st0.ws =
        none ∧
     genLoopShared noAuthEnv true c5st0 (plainJob :: [otherJob]) = none) :=
  ⟨⟨by decide,
    (provisionFailure_skips_authFailure_aborts forkFailEnv true).1 c5st0
      plainJob [otherJob] [] (by decide)⟩,
   ⟨by decide,
    (provisionFailure_skips_authFailure_aborts noAuthEnv true).2 c5st0
      plainJob [otherJob] (by decide)⟩⟩

/-! ## Theorems: artifact naming (C9) and regeneration (C10) -/

/-- **C10.**  `generateTasks` first deletes and recreates the output
directory, so on return the directory holds exactly one task document per
job whose provisioning (and, in worktree mode, worktree creation)
succeeded — the directory size equals the returned success count — and
the result is independent of whatever the directory contained before the
run: no artifact of an earlier run survives regeneration. -/
theorem generateTasks_cleans_and_counts (env : Env) (sh : Bool)
    (ws0 : Workspace) (prevDir : List JStr) (targets : List Job)
    (stS stW : GenState)
    (hS : generateTasksShared env sh ws0 prevDir targets = some stS)
    (hW : generateTasksWorktree env ws0 prevDir targets = some stW) :
    stS.dir.length = stS.success ∧
    stW.dir.length = stW.success ∧
    (∀ prevDir' : List JStr,
        generateTasksShared env sh ws0 prevDir' targets = some stS) ∧
    (∀ prevDir' : List JStr,
        generateTasksWorktree env ws0 prevDir' targets = some stW) := by
  obtain ⟨jobsS, _, hsuccS, _, hdirS, _⟩ :=
    genLoopShared_spec env sh targets ⟨ws0, 1, 0, clearDir prevDir⟩ stS hS
      (by simp [clearDir])
  obtain ⟨jobsW, _, hsuccW, _, hdirW⟩ :=
    genLoopWorktree_spec env targets ⟨ws0, 1, 0, clearDir prevDir⟩ stW hW
      (by simp [clearDir])
  simp only [clearDir, List.nil_append] at hdirS hdirW
  simp only at hsuccS hsuccW
  refine ⟨?_, ?_, fun prevDir' => hS, fun prevDir' => hW⟩
  · rw [hdirS, length_namesFrom]; omega
  · rw [hdirW, length_namesFrom]; omega

/-- Workspace state after provisioning `svc` for `acme` as `user`, used
by the concrete witnesses below. -/
def wsAfterSvc : Workspace :=
  [("svc".data, ⟨[(originName, forkUrl "user".data "svc".data),
                  (upstreamName, upstreamUrl "acme".data "svc".data)]⟩)]

def c10stS : GenState := ⟨wsAfterSvc, 2, 1, ["001_svc_main.md".data]⟩

def c10stW : GenState := ⟨wsAfterSvc, 2, 1, ["001_svc_main".data]⟩

theorem generateTasks_cleans_and_counts_witness :
    (generateTasksShared allOkEnv true [] ["stale.md".data] [plainJob] =
        some c10stS ∧
     generateTasksWorktree allOkEnv [] ["stale.md".data] [plainJob] =
        some c10stW) ∧
    (c10stS.dir.length = c10stS.success ∧
     c10stW.dir.length = c10stW.success ∧
     (∀ prevDir' : List JStr,
        generateTasksShared allOkEnv true [] prevDir' [plainJob] =
          some c10stS) ∧
     (∀ prevDir' : List JStr,
        generateTasksWorktree allOkEnv [] prevDir' [plainJob] =
          some c10stW)) :=
  ⟨⟨by decide, by decide⟩,
   generateTasks_cleans_and_counts allOkEnv true [] ["stale.md".data]
     [plainJob] c10stS c10stW (by decide) (by decide)⟩

/-! ## Repository keys and task grouping (`src/lib/utils.mjs`)

`extractRepoFromFilename` strips the `.md` suffix and the
`^\d+_` counter prefix, splits the rest on underscores and drops the last
component (the branch); `groupTasksByRepo` buckets the task files by that
key, in first-appearance order of the keys and preserving the file order
inside each bucket, exactly as the JavaScript object insertion does. -/

/-- `String.prototype.split(sep)`: always returns at least one (possibly
empty) part. -/
def splitOnChar (sep : Char) : JStr → List JStr
  | [] => [[]]
  | c :: cs =>
    match splitOnChar sep cs with
    | [] => [[]]
    | p :: ps => if c = sep then [] :: p :: ps else (c :: p) :: ps

/-- `taskFile.split('/').pop()` (`utils.mjs` line 154). -/
def lastPathComponent (f : JStr) : JStr := (splitOnChar '/' f).getLastD []

/-- `filename.replace(/\.md$/, '')`. -/
def stripMdSuffix (f : JStr) : JStr :=
  if ".md".data.isSuffixOf f then f.take (f.length - 3) else f

/-- `filename.replace(/^\d+_/, '')`: the regex matches exactly when the
maximal leading digit run is non-empty and is followed by an underscore,
in which case both are removed. -/
def stripNumPrefix (f : JStr) : JStr :=
  match f.takeWhile Char.isDigit, f.dropWhile Char.isDigit with
  | _ :: _, '_' :: rest => rest
  | _, _ => f

/-- `parts.join('_')`. -/
def joinChar (sep : Char) (parts : List JStr) : JStr :=
  List.intercalate [sep] parts

/-- `extractRepoFromFilename` (`utils.mjs` lines 131-143). -/
def extractRepoFromFilename (f : JStr) : JStr :=
  let base := stripNumPrefix (stripMdSuffix f)
  let parts := splitOnChar '_' base
  if 1 < parts.length then joinChar '_' parts.dropLast else base

/-- The repository key of a task file path: the repo extracted from its
basename. -/
def taskKey (taskFile : JStr) : JStr :=
  extractRepoFromFilename (lastPathComponent taskFile)

/-- `groups[repo].push(taskFile)` with on-demand bucket creation,
preserving key insertion order. -/
def insertTask (gs : List (JStr × List JStr)) (k : JStr) (t : JStr) :
    List (JStr × List JStr) :=
  match gs with
  | [] => [(k, [t])]
  | (k', ts) :: rest =>
    if k' = k then (k', ts ++ [t]) :: rest
    else (k', ts) :: insertTask rest k t

/-- `groupTasksByRepo` (`utils.mjs` lines 150-164). -/
def groupTasksByRepo (taskFiles : List JStr) : List (JStr × List JStr) :=
  taskFiles.foldl (fun gs f => insertTask gs (taskKey f) f) []

/-- The bucket stored under key `k` (empty when absent). -/
def bucketOf : List (JStr × List JStr) → JStr → List JStr
  | [], _ => []
  | (k', ts) :: rest, k => if k' = k then ts else bucketOf rest k

/-! ## Scheduler trace semantics (`src/lib/executor.mjs`,
`executeParallel` with `pLimit`)

`executeParallel` groups the sorted task files by repository, creates
`pLimit(maxJobs)`, and submits one async closure per group; each closure
runs its group's tasks strictly one after another (`for ... await
runTask`).  The semantics below is a small-step transition system over
scheduler states: `pending` holds the groups whose closure has not yet
been admitted by the limiter (admission is FIFO), and `active` holds one
entry per admitted closure — `running` is the task currently awaited (if
any) and `rest` the tasks still to run.  An entry with no tasks left
models a closure that has returned and released its limiter slot.  An
adversarial trace of events (enter / start / finish) covers every
interleaving the limiter permits. -/

structure Entry where
  running : Option JStr
  rest : List JStr
deriving DecidableEq, Repr

/-- The tasks an admitted closure still owns (running one first). -/
def entryTasks (e : Entry) : List JStr := e.running.toList ++ e.rest

/-- A closure that has not yet returned, i.e. still holds its limiter
slot. -/
def isLive (e : Entry) : Bool := !(entryTasks e).isEmpty

def liveCount (l : List Entry) : Nat := (l.filter isLive).length

structure SchedState where
  pending : List (List JStr)
  active : List Entry
deriving DecidableEq, Repr

inductive Event where
  | enter : Event
  | start : Nat → JStr → Event
  | finish : Nat → JStr → Event
deriving DecidableEq, Repr

/-- One scheduler transition.  `enter` moves the next waiting group into
the active set, allowed only while fewer than `maxJobs` closures hold
slots (the `pLimit(maxJobs)` guarantee); `start i t` begins the next task
`t` of active closure `i`, allowed only when that closure is not already
awaiting a task (the sequential `for` loop of the group closure);
`finish i t` completes the awaited task.  `none` rejects an impossible
event. -/
def step (maxJobs : Nat) (st : SchedState) : Event → Option SchedState
  | .enter =>
    match st.pending with
    | [] => none
    | g :: ps =>
      if liveCount st.active < maxJobs then
        some ⟨ps, st.active ++ [⟨none, g⟩]⟩
      else none
  | .start i t =>
    match st.active[i]? with
    | some ⟨none, t' :: rest⟩ =>
      if t' = t then some ⟨st.pending, st.active.set i ⟨some t, rest⟩⟩
      else none
    | _ => none
  | .finish i t =>
    match st.active[i]? with
    | some ⟨some t', rest⟩ =>
      if t' = t then some ⟨st.pending, st.active.set i ⟨none, rest⟩⟩
      else none
    | _ => none

def run (maxJobs : Nat) : SchedState → List Event → Option SchedState
  | st, [] => some st
  | st, e :: es =>
    match step maxJobs st e with
    | some st' => run maxJobs st' es
    | none => none

/-- The scheduler's starting state: the repository groups of the (sorted)
task file list all waiting, no closure admitted. -/
def initState (taskFiles : List JStr) : SchedState :=
  ⟨(groupTasksByRepo taskFiles).map Prod.snd, []⟩

/-- The tasks whose external agent subprocess is running at this
instant. -/
def runningTasks (st : SchedState) : List JStr :=
  st.active.filterMap Entry.running

/-- `t` has a finish event in the trace. -/
def finishedIn (tr : List Event) (t : JStr) : Bool :=
  tr.any fun e =>
    match e with
    | .finish _ t' => t' = t
    | _ => false

/-- An active entry descends from original group `g`: the tasks it still
owns are a suffix of `g` and everything before that suffix has already
finished in the trace. -/
def EntryFrom (tr : List Event) (g : List JStr) (e : Entry) : Prop :=
  ∃ done : List JStr,
    g = done ++ entryTasks e ∧ ∀ t ∈ done, finishedIn tr t = true

/-! ## Theorems: grouping (towards C1, C3) -/

lemma bucketOf_insertTask (gs : List (JStr × List JStr)) (k t k' : JStr) :
    bucketOf (insertTask gs k t) k' =
      if k = k' then bucketOf gs k' ++ [t] else bucketOf gs k' := by
  induction gs with
  | nil =>
    by_cases hk : k = k' <;> simp [insertTask, bucketOf, hk]
  | cons p rest ih =>
    obtain ⟨k0, ts⟩ := p
    by_cases h0 : k0 = k
    · subst h0
      by_cases hk : k0 = k' <;> simp [insertTask, bucketOf, hk]
    · by_cases hk : k0 = k' <;>
        by_cases hk2 : k = k' <;>
        simp_all [insertTask, bucketOf]

lemma bucketOf_foldl (files : List JStr) (gs : List (JStr × List JStr))
    (k : JStr) :
    bucketOf (files.foldl (fun gs f => insertTask gs (taskKey f) f) gs) k =
      bucketOf gs k ++ files.filter (fun f => taskKey f = k) := by
  induction files generalizing gs with
  | nil => simp
  | cons f rest ih =>
    rw [List.foldl_cons, ih, bucketOf_insertTask]
    by_cases hk : taskKey f = k <;> simp [hk, List.filter_cons]

/-- Each bucket of `groupTasksByRepo` is exactly the subsequence of task
files whose key is the bucket's key, in original order. -/
lemma bucketOf_groupTasksByRepo (files : List JStr) (k : JStr) :
    bucketOf (groupTasksByRepo files) k =
      files.filter (fun f => taskKey f = k) := by
  rw [groupTasksByRepo, bucketOf_foldl]
  rfl

lemma keys_insertTask (gs : List (JStr × List JStr)) (k t : JStr) :
    (insertTask gs k t).map Prod.fst =
      if k ∈ gs.map Prod.fst then gs.map Prod.fst
      else gs.map Prod.fst ++ [k] := by
  induction gs with
  | nil => simp [insertTask]
  | cons p rest ih =>
    obtain ⟨k0, ts⟩ := p
    by_cases h0 : k0 = k
    · subst h0; simp [insertTask]
    · have h0' : ¬k = k0 := fun hc => h0 hc.symm
      by_cases hmem : k ∈ rest.map Prod.fst <;>
        simp [insertTask, h0, h0', hmem, ih]

lemma keys_nodup_foldl (files : List JStr) (gs : List (JStr × List JStr))
    (h : (gs.map Prod.fst).Nodup) :
    ((files.foldl (fun gs f => insertTask gs (taskKey f) f) gs).map
      Prod.fst).Nodup := by
  induction files generalizing gs with
  | nil => exact h
  | cons f rest ih =>
    rw [List.foldl_cons]
    refine ih _ ?_
    rw [keys_insertTask]
    by_cases hmem : taskKey f ∈ gs.map Prod.fst
    · simpa [hmem] using h
    · simp [hmem, List.nodup_append, h]

lemma keys_nodup_groupTasksByRepo (files : List JStr) :
    ((groupTasksByRepo files).map Prod.fst).Nodup :=
  keys_nodup_foldl files [] (by simp)

lemma bucketOf_of_mem {gs : List (JStr × List JStr)} {k : JStr}
    {ts : List JStr} (hnd : (gs.map Prod.fst).Nodup) (h : (k, ts) ∈ gs) :
    bucketOf gs k = ts := by
  induction gs with
  | nil => simp at h
  | cons p rest ih =>
    obtain ⟨k0, ts0⟩ := p
    rcases List.mem_cons.mp h with h | h
    · obtain ⟨rfl, rfl⟩ := Prod.mk.injEq .. ▸ h
      simp [bucketOf]
    · have hk0 : k0 ≠ k := by
        rintro rfl
        have : k0 ∈ rest.map Prod.fst :=
          List.mem_map.mpr ⟨(k0, ts), h, rfl⟩
        simp [List.nodup_cons, this] at hnd
      simp only [bucketOf, hk0, if_false]
      exact ih (by simpa using hnd.of_cons) h

/-- Every member of a bucket carries that bucket's key. -/
lemma key_of_mem_bucket {files : List JStr} {k : JStr} {ts : List JStr}
    (h : (k, ts) ∈ groupTasksByRepo files) :
    ∀ t ∈ ts, taskKey t = k := by
  intro t ht
  have hb := bucketOf_of_mem (keys_nodup_groupTasksByRepo files) h
  rw [bucketOf_groupTasksByRepo] at hb
  have hmem : t ∈ files.filter (fun f => decide (taskKey f = k)) := hb ▸ ht
  simpa using List.of_mem_filter hmem

/-- Distinct groups hold tasks with distinct repository keys. -/
lemma groups_pairwise_keys (files : List JStr) :
    ((groupTasksByRepo files).map Prod.snd).Pairwise
      (fun g g' => ∀ t ∈ g, ∀ u ∈ g', taskKey t ≠ taskKey u) := by
  rw [List.pairwise_map]
  have hpair : (groupTasksByRepo files).Pairwise (fun p q => p.1 ≠ q.1) :=
    List.pairwise_map.mp (keys_nodup_groupTasksByRepo files)
  refine hpair.imp_of_mem ?_
  intro p q hp hq hne t ht u hu
  rw [key_of_mem_bucket hp t ht, key_of_mem_bucket hq u hu]
  exact hne

/-! ## Theorems: scheduler invariants (C1, C3) -/

lemma finishedIn_mono {tr : List Event} {t : JStr}
    (h : finishedIn tr t = true) (tr' : List Event) :
    finishedIn (tr ++ tr') t = true := by
  simp only [finishedIn, List.any_append, Bool.or_eq_true]
  exact Or.inl h

lemma finishedIn_exists {tr : List Event} {t : JStr}
    (h : finishedIn tr t = true) : ∃ j : Nat, Event.finish j t ∈ tr := by
  simp only [finishedIn, List.any_eq_true] at h
  obtain ⟨e, he, hm⟩ := h
  cases e with
  | enter => simp at hm
  | start j u => simp at hm
  | finish j u =>
    obtain rfl : u = t := of_decide_eq_true hm
    exact ⟨j, he⟩

lemma EntryFrom_mono {tr : List Event} {g : List JStr} {e : Entry}
    (h : EntryFrom tr g e) (tr' : List Event) : EntryFrom (tr ++ tr') g e := by
  obtain ⟨done, hg, hf⟩ := h
  exact ⟨done, hg, fun t ht => finishedIn_mono (hf t ht) tr'⟩

lemma liveCount_cons (x : Entry) (l : List Entry) :
    liveCount (x :: l) = (if isLive x then 1 else 0) + liveCount l := by
  by_cases h : isLive x <;> simp [liveCount, List.filter_cons, h, Nat.add_comm]

lemma liveCount_append_singleton (l : List Entry) (e : Entry) :
    liveCount (l ++ [e]) = liveCount l + (if isLive e then 1 else 0) := by
  by_cases h : isLive e <;> simp [liveCount, List.filter_append, h]

lemma liveCount_set_le (l : List Entry) (i : Nat) (e' eold : Entry)
    (hold : l[i]? = some eold) (h : isLive e' = true → isLive eold = true) :
    liveCount (l.set i e') ≤ liveCount l := by
  induction l generalizing i with
  | nil => simp at hold
  | cons x rest ih =>
    cases i with
    | zero =>
      obtain rfl : x = eold := by simpa using hold
      rw [List.set_cons_zero, liveCount_cons, liveCount_cons]
      by_cases he : isLive e'
      · simp [he, h he]
      · have h0 : (if isLive e' = true then 1 else 0) = 0 := by simp [he]
        rw [h0]
        omega
    | succ i =>
      have hold' : rest[i]? = some eold := by simpa using hold
      rw [List.set_cons_succ, liveCount_cons, liveCount_cons]
      have := ih i hold'
      omega

lemma length_runningTasks_le_liveCount (l : List Entry) :
    (l.filterMap Entry.running).length ≤ liveCount l := by
  induction l with
  | nil => simp [liveCount]
  | cons e rest ih =>
    rw [liveCount_cons]
    cases he : e.running with
    | none =>
      rw [List.filterMap_cons_none he]
      omega
    | some t =>
      have hlive : isLive e = true := by simp [isLive, entryTasks, he]
      rw [List.filterMap_cons_some he, hlive]
      simp only [List.length_cons, if_true]
      omega

/-- The reachability invariant of the parallel scheduler, relative to the
original group lists `gs` and the consumed trace `tr`: admission is FIFO
(the waiting groups are exactly the tail of `gs` beyond the admitted
prefix), every admitted closure still owns a suffix of its own group with
everything before it finished, and at most `maxJobs` closures hold
limiter slots. -/
structure Inv (maxJobs : Nat) (gs : List (List JStr)) (tr : List Event)
    (st : SchedState) : Prop where
  pending_eq : st.pending = gs.drop st.active.length
  origins : List.Forall₂ (EntryFrom tr) (gs.take st.active.length) st.active
  live_le : liveCount st.active ≤ maxJobs

lemma inv_init (mj : Nat) (gs : List (List JStr)) :
    Inv mj gs [] ⟨gs, []⟩ := by
  refine ⟨by simp, ?_, by simp [liveCount]⟩
  simp only [List.length_nil, List.take_zero]
  exact List.Forall₂.nil

/-- Each scheduler transition preserves the invariant. -/
lemma inv_step {mj : Nat} {gs : List (List JStr)} {tr : List Event}
    {st st' : SchedState} {e : Event}
    (hinv : Inv mj gs tr st) (hstep : step mj st e = some st') :
    Inv mj gs (tr ++ [e]) st' := by
  obtain ⟨hpend, horig, hlive⟩ := hinv
  have hlen : (gs.take st.active.length).length = st.active.length :=
    horig.length_eq
  cases e with
  | enter =>
    simp only [MultiRepoAgent.step] at hstep
    cases hp : st.pending with
    | nil => rw [hp] at hstep; exact absurd hstep (by simp)
    | cons g ps =>
      rw [hp] at hstep
      by_cases hl : liveCount st.active < mj
      · simp only [hl, if_true, Option.some_inj] at hstep
        subst hstep
        rw [hp] at hpend
        have hdrop : gs.drop st.active.length = g :: ps := hpend.symm
        have hg : gs[st.active.length]? = some g := by
          have h0 : (gs.drop st.active.length)[0]? = some g := by
            rw [hdrop]; simp
          rw [List.getElem?_drop] at h0
          simpa using h0
        refine ⟨?_, ?_, ?_⟩
        · show ps = gs.drop (st.active ++ [(⟨none, g⟩ : Entry)]).length
          have : (gs.drop st.active.length).drop 1 =
              gs.drop (st.active.length + 1) := List.drop_drop 1 _ _
          rw [List.length_append, List.length_cons, List.length_nil,
            ← this, hdrop]
          rfl
        · show List.Forall₂ (EntryFrom (tr ++ [Event.enter]))
            (gs.take (st.active ++ [(⟨none, g⟩ : Entry)]).length)
            (st.active ++ [(⟨none, g⟩ : Entry)])
          rw [List.length_append, List.length_cons, List.length_nil,
            List.take_succ, hg]
          refine List.rel_append
            (horig.imp fun _ _ hR => EntryFrom_mono hR _) ?_
          refine List.Forall₂.cons ⟨[], ?_, by simp⟩ List.Forall₂.nil
          simp [entryTasks]
        · show liveCount (st.active ++ [(⟨none, g⟩ : Entry)]) ≤ mj
          rw [liveCount_append_singleton]
          by_cases hlv : isLive ⟨none, g⟩ <;> simp [hlv] <;> omega
      · simp [hl] at hstep
  | start i t =>
    simp only [MultiRepoAgent.step] at hstep
    cases hi : st.active[i]? with
    | none => rw [hi] at hstep; exact absurd hstep (by simp)
    | some ei =>
      rw [hi] at hstep
      obtain ⟨orun, orest⟩ := ei
      cases orun with
      | some t0 => simp at hstep
      | none =>
        cases orest with
        | nil => simp at hstep
        | cons t' rest =>
          by_cases ht : t' = t
          · subst ht
            simp at hstep
            subst hstep
            obtain ⟨hi_lt, hi_get⟩ := List.getElem?_eq_some.mp hi
            refine ⟨?_, ?_, ?_⟩
            · show st.pending =
                gs.drop (st.active.set i ⟨some t', rest⟩).length
              rw [List.length_set]
              exact hpend
            · show List.Forall₂ (EntryFrom (tr ++ [Event.start i t']))
                (gs.take (st.active.set i ⟨some t', rest⟩).length)
                (st.active.set i ⟨some t', rest⟩)
              rw [List.length_set]
              rw [List.forall₂_iff_get]
              refine ⟨by simpa [List.length_set] using hlen, ?_⟩
              intro j h1 h2
              have hj_lt : j < st.active.length := by
                simpa [List.length_set] using h2
              by_cases hij : i = j
              · subst hij
                have hnew : (st.active.set i ⟨some t', rest⟩).get ⟨i, h2⟩ =
                    ⟨some t', rest⟩ := by
                  simp [List.get_eq_getElem, List.getElem_set]
                rw [hnew]
                have hR := horig.get h1 hi_lt
                have hold : st.active.get ⟨i, hi_lt⟩ =
                    ⟨none, t' :: rest⟩ := by
                  simpa [List.get_eq_getElem] using hi_get
                rw [hold] at hR
                obtain ⟨done, hg, hf⟩ := hR
                refine ⟨done, ?_, fun u hu => finishedIn_mono (hf u hu) _⟩
                simpa [entryTasks] using hg
              · have hnew : (st.active.set i ⟨some t', rest⟩).get ⟨j, h2⟩ =
                    st.active.get ⟨j, hj_lt⟩ := by
                  simp [List.get_eq_getElem, List.getElem_set, hij]
                rw [hnew]
                exact EntryFrom_mono (horig.get h1 hj_lt) _
            · show liveCount (st.active.set i ⟨some t', rest⟩) ≤ mj
              have hle := liveCount_set_le st.active i ⟨some t', rest⟩
                ⟨none, t' :: rest⟩ hi
                (fun _ => by simp [isLive, entryTasks])
              omega
          · simp [ht] at hstep
  | finish i t =>
    simp only [MultiRepoAgent.step] at hstep
    cases hi : st.active[i]? with
    | none => rw [hi] at hstep; exact absurd hstep (by simp)
    | some ei =>
      rw [hi] at hstep
      obtain ⟨orun, orest⟩ := ei
      cases orun with
      | none => simp at hstep
      | some t' =>
        by_cases ht : t' = t
        · subst ht
          simp at hstep
          subst hstep
          obtain ⟨hi_lt, hi_get⟩ := List.getElem?_eq_some.mp hi
          refine ⟨?_, ?_, ?_⟩
          · show st.pending =
              gs.drop (st.active.set i ⟨none, orest⟩).length
            rw [List.length_set]
            exact hpend
          · show List.Forall₂ (EntryFrom (tr ++ [Event.finish i t']))
              (gs.take (st.active.set i ⟨none, orest⟩).length)
              (st.active.set i ⟨none, orest⟩)
            rw [List.length_set]
            rw [List.forall₂_iff_get]
            refine ⟨by simpa [List.length_set] using hlen, ?_⟩
            intro j h1 h2
            have hj_lt : j < st.active.length := by
              simpa [List.length_set] using h2
            by_cases hij : i = j
            · subst hij
              have hnew : (st.active.set i ⟨none, orest⟩).get ⟨i, h2⟩ =
                  ⟨none, orest⟩ := by
                simp [List.get_eq_getElem, List.getElem_set]
              rw [hnew]
              have hR := horig.get h1 hi_lt
              have hold : st.active.get ⟨i, hi_lt⟩ =
                  ⟨some t', orest⟩ := by
                simpa [List.get_eq_getElem] using hi_get
              rw [hold] at hR
              obtain ⟨done, hg, hf⟩ := hR
              refine ⟨done ++ [t'], ?_, ?_⟩
              · simpa [entryTasks, List.append_assoc] using hg
              · intro u hu
                rcases List.mem_append.mp hu with hu | hu
                · exact finishedIn_mono (hf u hu) _
                · rw [List.mem_singleton.mp hu]
                  simp [finishedIn, List.any_append]
            · have hnew : (st.active.set i ⟨none, orest⟩).get ⟨j, h2⟩ =
                  st.active.get ⟨j, hj_lt⟩ := by
                simp [List.get_eq_getElem, List.getElem_set, hij]
              rw [hnew]
              exact EntryFrom_mono (horig.get h1 hj_lt) _
          · show liveCount (st.active.set i ⟨none, orest⟩) ≤ mj
            have hle := liveCount_set_le st.active i ⟨none, orest⟩
              ⟨some t', orest⟩ hi
              (fun _ => by simp [isLive, entryTasks])
            omega
        · simp [ht] at hstep

/-- The invariant holds along every valid trace. -/
lemma inv_run {mj : Nat} {gs : List (List JStr)} :
    ∀ {es : List Event} {tr : List Event} {st st' : SchedState},
      Inv mj gs tr st → run mj st es = some st' →
      Inv mj gs (tr ++ es) st' := by
  intro es
  induction es with
  | nil =>
    intro tr st st' hinv h
    obtain rfl : st = st' := by simpa [MultiRepoAgent.run] using h
    simpa using hinv
  | cons e es ih =>
    intro tr st st' hinv h
    simp only [MultiRepoAgent.run] at h
    cases hstep : step mj st e with
    | none => rw [hstep] at h; exact absurd h (by simp)
    | some st1 =>
      rw [hstep] at h
      have h1 := inv_step hinv hstep
      have h2 := ih h1 h
      simpa [List.append_assoc] using h2

/-- Every state reached by the parallel scheduler from the grouped task
files satisfies the invariant. -/
lemma inv_reached {mj : Nat} {taskFiles : List JStr} {tr : List Event}
    {st : SchedState}
    (h : run mj (initState taskFiles) tr = some st) :
    Inv mj ((groupTasksByRepo taskFiles).map Prod.snd) tr st := by
  have h0 := inv_init mj ((groupTasksByRepo taskFiles).map Prod.snd)
  have := inv_run h0 h
  simpa using this

/-- A prefix of a valid trace is valid. -/
lemma run_append_some {mj : Nat} {st st'' : SchedState}
    {as bs : List Event} (h : run mj st (as ++ bs) = some st'') :
    ∃ st', run mj st as = some st' ∧ run mj st' bs = some st'' := by
  induction as generalizing st with
  | nil => exact ⟨st, rfl, h⟩
  | cons e as ih =>
    rw [List.cons_append] at h
    simp only [MultiRepoAgent.run] at h ⊢
    cases hstep : step mj st e with
    | none => rw [hstep] at h; exact absurd h (by simp)
    | some st1 =>
      rw [hstep] at h
      exact ih h

/-- **C3.**  In parallel mode the number of concurrently running task
subprocesses never exceeds `maxJobs`: the `pLimit(maxJobs)` limiter
admits at most `maxJobs` repository-group closures at once and each
admitted closure awaits at most one task at a time, so in every state
reachable by any trace of the scheduler the running-task count is
globally bounded by `maxJobs` (across all groups, not per group). -/
theorem parallel_concurrency_cap (taskFiles : List JStr) (mj : Nat)
    (tr : List Event) (st : SchedState)
    (h : run mj (initState taskFiles) tr = some st) :
    (runningTasks st).length ≤ mj := by
  have hinv := inv_reached h
  exact le_trans (length_runningTasks_le_liveCount st.active) hinv.live_le

/-- In a duplicate-free list the split around a fixed element is
unique. -/
lemma nodup_split_unique {l a b c d : List JStr} {x : JStr}
    (hnd : l.Nodup) (h1 : l = a ++ x :: b) (h2 : l = c ++ x :: d) :
    a = c ∧ b = d := by
  induction a generalizing l c with
  | nil =>
    subst h1
    cases c with
    | nil =>
      rw [List.nil_append] at h2
      refine ⟨rfl, ?_⟩
      injection h2
    | cons y c' =>
      rw [List.cons_append] at h2
      injection h2 with hxy hb
      exfalso
      subst hxy
      have hx : x ∈ b := by rw [hb]; simp
      exact (List.nodup_cons.mp hnd).1 hx
  | cons y a' ih =>
    cases c with
    | nil =>
      rw [List.nil_append] at h2
      rw [List.cons_append] at h1
      subst h2
      injection h1 with hxy hd
      exfalso
      subst hxy
      have hx : x ∈ d := by rw [hd]; simp
      exact (List.nodup_cons.mp hnd).1 hx
    | cons z c' =>
      rw [List.cons_append] at h1 h2
      have h12 := h1.symm.trans h2
      injection h12 with hyz htail
      subst hyz
      have hnd' : (a' ++ x :: b).Nodup := by
        rw [h1] at hnd
        exact (List.nodup_cons.mp hnd).2
      obtain ⟨hac, hbd⟩ := ih hnd' rfl htail
      exact ⟨by rw [hac], hbd⟩

/-- **C1.**  In parallel mode the scheduler partitions the sorted task
files into groups by repository key and runs each group's tasks strictly
one after another in the files' sorted (generation) order, while only
distinct repository groups run concurrently.  Consequently (first
conjunct) at every reachable instant the tasks running concurrently have
pairwise distinct repository keys — two tasks with the same key are never
in flight together, i.e. their execution intervals never overlap — and
(second conjunct) whenever a task `t2` starts, every same-key task `t1`
that precedes it in the task file list has already finished earlier in
the trace. -/
theorem parallel_repo_mutex_and_order (taskFiles : List JStr) (mj : Nat)
    (tr : List Event) (st : SchedState) (hnd : taskFiles.Nodup)
    (h : run mj (initState taskFiles) tr = some st) :
    (runningTasks st).Pairwise (fun a b => taskKey a ≠ taskKey b) ∧
    (∀ (pre post : List Event) (i : Nat) (t2 : JStr),
        tr = pre ++ Event.start i t2 :: post →
        ∀ (t1 : JStr) (l1 l2 l3 : List JStr),
          taskFiles = l1 ++ t1 :: l2 ++ t2 :: l3 →
          taskKey t1 = taskKey t2 →
          ∃ j : Nat, Event.finish j t1 ∈ pre) := by
  constructor
  · -- mutual exclusion at the final state of the trace
    obtain ⟨hpend, horig, hlive⟩ := inv_reached h
    have hlen := horig.length_eq
    have htake : ((groupTasksByRepo taskFiles).map Prod.snd).take
        st.active.length |>.Pairwise
        (fun g g' => ∀ x ∈ g, ∀ y ∈ g', taskKey x ≠ taskKey y) :=
      (groups_pairwise_keys taskFiles).sublist (List.take_sublist _ _)
    have hactive : st.active.Pairwise
        (fun e e' => ∀ x ∈ e.running, ∀ y ∈ e'.running,
          taskKey x ≠ taskKey y) := by
      rw [List.pairwise_iff_get]
      intro i j hij x hx y hy
      have hi' : (i : Nat) < (((groupTasksByRepo taskFiles).map
          Prod.snd).take st.active.length).length := by
        rw [hlen]; exact i.2
      have hj' : (j : Nat) < (((groupTasksByRepo taskFiles).map
          Prod.snd).take st.active.length).length := by
        rw [hlen]; exact j.2
      have hS := (List.pairwise_iff_get.mp htake) ⟨i.1, hi'⟩ ⟨j.1, hj'⟩ hij
      obtain ⟨d1, hg1, _⟩ := horig.get hi' i.2
      obtain ⟨d2, hg2, _⟩ := horig.get hj' j.2
      have hx_tasks : x ∈ entryTasks (st.active.get ⟨i.1, i.2⟩) := by
        have hrun : (st.active.get ⟨i.1, i.2⟩).running = some x := hx
        unfold entryTasks
        rw [hrun]
        simp
      have hy_tasks : y ∈ entryTasks (st.active.get ⟨j.1, j.2⟩) := by
        have hrun : (st.active.get ⟨j.1, j.2⟩).running = some y := hy
        unfold entryTasks
        rw [hrun]
        simp
      have hx' : x ∈ (((groupTasksByRepo taskFiles).map Prod.snd).take
          st.active.length).get ⟨i.1, hi'⟩ := by
        rw [hg1]
        exact List.mem_append_right _ hx_tasks
      have hy' : y ∈ (((groupTasksByRepo taskFiles).map Prod.snd).take
          st.active.length).get ⟨j.1, hj'⟩ := by
        rw [hg2]
        exact List.mem_append_right _ hy_tasks
      exact hS x hx' y hy'
    exact hactive.filterMap Entry.running
      (fun a a' hr b hb b' hb' => hr b hb b' hb')
  · -- ordering within a repository group
    intro pre post i t2 htr t1 l1 l2 l3 hfiles hkey
    subst htr
    obtain ⟨stp, hpre, hrest⟩ := run_append_some h
    simp only [MultiRepoAgent.run] at hrest
    cases hstep : step mj stp (Event.start i t2) with
    | none => rw [hstep] at hrest; exact absurd hrest (by simp)
    | some stmid =>
      obtain ⟨hpend, horig, hlive⟩ := inv_reached hpre
      simp only [MultiRepoAgent.step] at hstep
      cases hi : stp.active[i]? with
      | none => rw [hi] at hstep; exact absurd hstep (by simp)
      | some ei =>
        rw [hi] at hstep
        obtain ⟨orun, orest⟩ := ei
        cases orun with
        | some t0 => simp at hstep
        | none =>
          cases orest with
          | nil => simp at hstep
          | cons t' rest =>
            by_cases ht : t' = t2
            case neg => simp [ht] at hstep
            case pos =>
              subst ht
              obtain ⟨hi_lt, hi_get⟩ := List.getElem?_eq_some.mp hi
              have hlen := horig.length_eq
              have hi_lt' : i < (((groupTasksByRepo taskFiles).map
                  Prod.snd).take stp.active.length).length := by
                rw [hlen]; exact hi_lt
              have hR := horig.get hi_lt' hi_lt
              have hold : stp.active.get ⟨i, hi_lt⟩ =
                  ⟨none, t' :: rest⟩ := by
                simpa [List.get_eq_getElem] using hi_get
              rw [hold] at hR
              obtain ⟨done, hg, hf⟩ := hR
              set g : List JStr := (((groupTasksByRepo taskFiles).map
                Prod.snd).take stp.active.length).get ⟨i, hi_lt'⟩ with hgdef
              have hg1 : g = done ++ t' :: rest := by
                simpa [entryTasks] using hg
              have hg_mem : g ∈ (groupTasksByRepo taskFiles).map Prod.snd :=
                List.mem_of_mem_take (List.get_mem _ i hi_lt')
              obtain ⟨p, hp_mem, hp_snd⟩ := List.mem_map.mp hg_mem
              have ht'g : t' ∈ p.2 := by
                rw [hp_snd, hg1]; simp
              have hkey2 : taskKey t' = p.1 :=
                key_of_mem_bucket hp_mem t' ht'g
              have hb := bucketOf_of_mem
                (keys_nodup_groupTasksByRepo taskFiles) hp_mem
              rw [bucketOf_groupTasksByRepo, ← hkey2] at hb
              have hg_filter : taskFiles.filter
                  (fun f => taskKey f = taskKey t') = g := by
                rw [hb, hp_snd]
              have hdec : taskFiles.filter
                  (fun f => taskKey f = taskKey t') =
                  (l1.filter (fun f => taskKey f = taskKey t') ++
                    t1 :: l2.filter (fun f => taskKey f = taskKey t')) ++
                  t' :: l3.filter (fun f => taskKey f = taskKey t') := by
                rw [hfiles]
                simp [List.filter_append, List.filter_cons, hkey]
              have hgnodup : g.Nodup := by
                rw [← hg_filter]
                exact hnd.filter _
              have hg2 : g = (l1.filter (fun f => taskKey f = taskKey t') ++
                    t1 :: l2.filter (fun f => taskKey f = taskKey t')) ++
                  t' :: l3.filter (fun f => taskKey f = taskKey t') := by
                rw [← hg_filter, hdec]
              obtain ⟨hdone_eq, _⟩ := nodup_split_unique hgnodup hg1 hg2
              have ht1 : t1 ∈ done := by
                rw [hdone_eq]; simp
              exact finishedIn_exists (hf t1 ht1)

/-- Concrete scheduler runs for the C1 and C3 witnesses. -/
def c1files : List JStr := ["001_svc_main.md".data, "002_svc_dev.md".data]

def c1trace : List Event :=
  [Event.enter,
   Event.start 0 "001_svc_main.md".data,
   Event.finish 0 "001_svc_main.md".data,
   Event.start 0 "002_svc_dev.md".data,
   Event.finish 0 "002_svc_dev.md".data]

def c1final : SchedState := ⟨[], [⟨none, []⟩]⟩

theorem parallel_repo_mutex_and_order_witness :
    (c1files.Nodup ∧ run 1 (initState c1files) c1trace = some c1final) ∧
    ((runningTasks c1final).Pairwise (fun a b => taskKey a ≠ taskKey b) ∧
     (∀ (pre post : List Event) (i : Nat) (t2 : JStr),
        c1trace = pre ++ Event.start i t2 :: post →
        ∀ (t1 : JStr) (l1 l2 l3 : List JStr),
          c1files = l1 ++ t1 :: l2 ++ t2 :: l3 →
          taskKey t1 = taskKey t2 →
          ∃ j : Nat, Event.finish j t1 ∈ pre)) :=
  ⟨⟨by decide, by decide⟩,
   parallel_repo_mutex_and_order c1files 1 c1trace c1final (by decide)
     (by decide)⟩

def c3files : List JStr := ["001_a_m.md".data, "002_b_m.md".data]

def c3trace : List Event :=
  [Event.enter, Event.enter,
   Event.start 0 "001_a_m.md".data, Event.start 1 "002_b_m.md".data,
   Event.finish 0 "001_a_m.md".data, Event.finish 1 "002_b_m.md".data]

def c3final : SchedState := ⟨[], [⟨none, []⟩, ⟨none, []⟩]⟩

theorem parallel_concurrency_cap_witness :
    run 2 (initState c3files) c3trace = some c3final ∧
    (runningTasks c3final).length ≤ 2 :=
  ⟨by decide,
   parallel_concurrency_cap c3files 2 c3trace c3final (by decide)⟩

end MultiRepoAgent
